import Mathlib

/-!
Verification of the plexpost file-mapping and subtitle-sidecar engine
(`plexpost/file_mapper.py`) and of the directory pruner described by the
design document.  Python strings are modelled as Lean `String`s (reasoned
about through their `List Char` data), Python lists as Lean `List`s, and
the rule dictionaries produced by the mapper as a `Rule` structure.
-/

/-- Word character in the sense of the `re` module's `\b` boundary
(ASCII fragment: letters, digits and underscore). -/
def isWordChar (c : Char) : Bool := c.isAlphanum || c == '_'

/-- Whether the regex boundary `\b` matches between positions `i-1` and `i`
of the character list `l`: exactly one of the two neighbouring positions
holds a word character (positions outside the string count as non-word). -/
def boundaryAt (l : List Char) (i : Nat) : Bool :=
  let prev := if i == 0 then false else isWordChar (l.getD (i - 1) ' ')
  let next := if i < l.length then isWordChar (l.getD i ' ') else false
  prev != next

/-- Whether the regex `\b w \b` matches at position 0 of `l` (both already
lower-cased): `w` is a literal prefix of `l` and both boundaries hold. -/
def matchAnchoredWord (l w : List Char) : Bool :=
  w.isPrefixOf l && boundaryAt l 0 && boundaryAt l w.length

/-- `file_mapper.contains_any_word_ignoring_case`: compiles
`\b(w1|w2|...)\b` with `re.IGNORECASE` and tests it with `re.match`, i.e.
anchored at the start of `line`.  Backtracking alternation is equivalent to
an existential over the word list; `re.IGNORECASE` is modelled by
lower-casing both sides. -/
def contains_any_word_ignoring_case (line : String) (words : List String) : Bool :=
  let l := line.data.map Char.toLower
  words.any fun w => matchAnchoredWord l (w.data.map Char.toLower)

/-- `file_mapper.is_english_subtitle`. -/
def is_english_subtitle (name : String) : Bool :=
  contains_any_word_ignoring_case name ["english", "eng", "en"]

/-- `file_mapper.is_sdh_subtitle`. -/
def is_sdh_subtitle (name : String) : Bool :=
  contains_any_word_ignoring_case name ["sdh"]

/-- `os.path.splitext(p)[1]` for POSIX paths, on the character list: the
extension (with its dot) is the part from the last `.` onward, provided
that dot lies inside the final path component and some character of that
component strictly before it is not a dot; otherwise the empty list. -/
def splitextTailAux (d : List Char) : List Char :=
  let r := d.reverse
  let extRev := r.takeWhile (fun c => c != '.')
  if extRev.length = r.length then []
  else if extRev.contains '/' then []
  else if ((r.drop (extRev.length + 1)).takeWhile (fun c => c != '/')).any (fun c => c != '.')
  then '.' :: extRev.reverse
  else []

/-- `file_mapper.parse_extension`: `os.path.splitext(filename)[1][1:]`. -/
def parse_extension (filename : String) : String :=
  ⟨(splitextTailAux filename.data).drop 1⟩

/-- `file_mapper.is_video`. -/
def is_video (filename : String) : Bool :=
  ["avi", "mkv", "mp4"].contains (parse_extension filename)

/-- `file_mapper.is_subtitle`. -/
def is_subtitle (filename : String) : Bool :=
  ["sub", "idx", "srt", "smi", "ssa", "ass", "vtt"].contains (parse_extension filename)

/-- `os.path.basename` for POSIX paths: everything after the last `/`. -/
def pyBasename (p : String) : String :=
  ⟨(p.data.reverse.takeWhile (fun c => c != '/')).reverse⟩

/-- `os.path.dirname` for POSIX paths: everything up to the last `/`, with
trailing slashes stripped unless the head consists solely of slashes. -/
def pyDirname (p : String) : String :=
  let d := p.data
  if d.contains '/' then
    let head := (d.reverse.dropWhile (fun c => c != '/')).reverse
    if head.all (fun c => c == '/') then ⟨head⟩
    else ⟨(head.reverse.dropWhile (fun c => c == '/')).reverse⟩
  else ""

/-- One entry of `torrent.files()`: the fields the mapper reads
(`name`, `size`). -/
structure DFile where
  name : String
  size : Nat
deriving DecidableEq, Repr

/-- The torrent fields the mapper reads: `downloadDir` and the file list
(`torrent.files().values()` in iteration order). -/
structure Torrent where
  downloadDir : String
  files : List DFile
deriving DecidableEq, Repr

/-- A mapping-rule dictionary `{'download_dir': .., 'filename': .., 'dest': ..}`. -/
structure Rule where
  download_dir : String
  filename : String
  dest : String
deriving DecidableEq, Repr

/-- Insert into a list sorted descending by `key`, keeping the inserted
element before later elements of equal key. -/
def insertByDesc (key : α → Nat) (x : α) : List α → List α
  | [] => [x]
  | y :: ys => if key y > key x then y :: insertByDesc key x ys else x :: y :: ys

/-- Models Python's `sorted(l, key=key, reverse=True)`: a stable sort,
descending by `key`, equal keys keeping their original order. -/
def pySortedDesc (key : α → Nat) (l : List α) : List α :=
  l.foldr (insertByDesc key) []

/-- `file_mapper.forward_main_videos`. -/
def forward_main_videos (t : Torrent) : List Rule :=
  let videos := t.files.filter fun f => is_video f.name
  let videos_by_size := pySortedDesc (fun v => v.size) videos
  match videos_by_size with
  | [] => []
  | main_video :: _ =>
    [⟨t.downloadDir, main_video.name, main_video.name⟩]

/-- `file_mapper.forward_subtitles`. -/
def forward_subtitles (t : Torrent) : List Rule :=
  t.files.filterMap fun f =>
    if is_subtitle f.name then some ⟨t.downloadDir, f.name, f.name⟩ else none

/-- `file_mapper.rank_subtitle`.  The Python code stores the rank on the
rule dictionary before sorting; the rank is a pure function of the
filename, so it is computed here at use sites instead. -/
def rank_subtitle (subtitle : Rule) : Nat :=
  let name := pyBasename subtitle.filename
  if is_english_subtitle name then
    if is_sdh_subtitle name then 90 else 100
  else 80

/-- `file_mapper.has_sidecar`. -/
def has_sidecar (subtitles : List Rule) (video_dir : String) : Bool :=
  subtitles.any fun sub => pyDirname sub.filename == video_dir

/-- `file_mapper.has_vobsub`: the loop sets `has_idx` / `has_sub` when it
sees a file of that extension, hence each flag is an existential. -/
def has_vobsub (subtitles : List Rule) : Bool :=
  (subtitles.any fun sub => parse_extension sub.filename == "idx") &&
  (subtitles.any fun sub => parse_extension sub.filename == "sub")

/-- `file_mapper.sidecar_vobsub`. -/
def sidecar_vobsub (subtitles : List Rule) (video_dir : String) : List Rule :=
  subtitles.filterMap fun sub =>
    if parse_extension sub.filename ∈ (["idx", "sub"] : List String) then
      some ⟨sub.download_dir, sub.filename, video_dir ++ "/" ++ pyBasename sub.filename⟩
    else none

/-- `file_mapper.sidecar_best_non_vobsub`. -/
def sidecar_best_non_vobsub (subtitles : List Rule) (video_dir : String) : List Rule :=
  let ranked_subs := pySortedDesc rank_subtitle subtitles
  match ranked_subs with
  | [] => []
  | best_sub :: _ =>
    [⟨best_sub.download_dir, best_sub.filename,
      video_dir ++ "/" ++ pyBasename best_sub.filename⟩]

/-- `file_mapper.sidecar_subtitle`. -/
def sidecar_subtitle (main_video : List Rule) (subtitles : List Rule) : List Rule :=
  match main_video with
  | [] => []
  | mv :: _ =>
    let video_dir := pyDirname mv.filename
    if has_sidecar subtitles video_dir then []
    else if has_vobsub subtitles then sidecar_vobsub subtitles video_dir
    else sidecar_best_non_vobsub subtitles video_dir

/-- `file_mapper.move_to_dir`: prefixes every rule's `dest` with `folder`
by plain string concatenation. -/
def move_to_dir (folder : String) (files : List Rule) : List Rule :=
  files.map fun f => ⟨f.download_dir, f.filename, folder ++ f.dest⟩

/-- `file_mapper.map_single_video_download_with_subs`. -/
def map_single_video_download_with_subs (t : Torrent) (dest_dir : String) : List Rule :=
  let main_video := forward_main_videos t
  let subtitles := forward_subtitles t
  let sidecar_subs := sidecar_subtitle main_video subtitles
  move_to_dir dest_dir (main_video ++ subtitles ++ sidecar_subs)

/-- Modelled from the spec: the Directory Pruner (`pruneEmptyDirectories`)
lives in a module of this repository that is not present under the sources
verified here; only its tests are.  The filesystem under the pruning root
is modelled as the list of the currently existing file paths and the list
of the currently existing directory paths, each path a root-relative list
of segments (the root itself is the empty path `[]`). -/
structure FS where
  files : List (List String)
  dirs : List (List String)
deriving DecidableEq, Repr

/-- Modelled from the spec: a directory is empty when it has no files and
no subdirectories, i.e. no existing file or directory has it as its
parent (a path's parent drops the last segment; the root `[]` is nobody's
subdirectory). -/
def isEmptyDir (fs : FS) (d : List String) : Bool :=
  (fs.files.all fun f => !(f.dropLast == d)) &&
  (fs.dirs.all fun d2 => d2.isEmpty || !(d2.dropLast == d))

/-- Delete a directory from the filesystem. -/
def removeDir (fs : FS) (d : List String) : FS :=
  ⟨fs.files, fs.dirs.filter fun d2 => !(d2 == d)⟩

/-- Modelled from the spec: one upward pruning walk, fuelled for
structural recursion (`pruneChain` supplies fuel `d.length`, enough for
the walk to reach the root): at each level, if the directory is empty,
delete it and continue with its parent; stop at the first non-empty
directory or upon reaching the root, which is never deleted. -/
def pruneChainFuel : Nat → FS → List String → FS
  | 0, fs, _ => fs
  | _ + 1, fs, [] => fs
  | fuel + 1, fs, s :: rest =>
    if isEmptyDir fs (s :: rest) then
      pruneChainFuel fuel (removeDir fs (s :: rest)) ((s :: rest).dropLast)
    else fs

/-- Modelled from the spec: the upward walk from directory `d` toward the
root. -/
def pruneChain (fs : FS) (d : List String) : FS :=
  pruneChainFuel d.length fs d

/-- Modelled from the spec: `pruneEmptyDirectories(root, deletedFiles)` —
called after the files in `deletedFiles` have been deleted, it walks
upward from each deleted file's parent directory, pruning empty
directories, stopping at the first non-empty ancestor or at the root. -/
def pruneEmptyDirectories (fs : FS) (deletedFiles : List (List String)) : FS :=
  deletedFiles.foldl (fun acc f => pruneChain acc f.dropLast) fs

/-- The spec's pruning-boundary scenario after `file1` has been deleted:
root `R` still contains the file `R/a/external` and the directories `R`,
`R/a` and `R/a/b`. -/
def pruneExampleFS : FS :=
  ⟨[["a", "external"]], [[], ["a"], ["a", "b"]]⟩

/-! ## Helper lemmas -/

theorem filterMap_if_eq_map_filter (p : α → Bool) (g : α → β) (l : List α) :
    (l.filterMap fun a => if p a then some (g a) else none) = (l.filter p).map g := by
  induction l with
  | nil => rfl
  | cons a l ih =>
    by_cases h : p a = true
    · simp [List.filterMap_cons, List.filter_cons, h, ih]
    · simp only [Bool.not_eq_true] at h
      simp [List.filterMap_cons, List.filter_cons, h, ih]

theorem mem_insertByDesc (key : α → Nat) (x a : α) (l : List α) :
    x ∈ insertByDesc key a l ↔ x = a ∨ x ∈ l := by
  induction l with
  | nil => simp [insertByDesc]
  | cons y ys ih =>
    by_cases h : key y > key a
    · simp only [insertByDesc, if_pos h, List.mem_cons, ih]
      tauto
    · simp only [insertByDesc, if_neg h, List.mem_cons]

theorem mem_pySortedDesc (key : α → Nat) (x : α) (l : List α) :
    x ∈ pySortedDesc key l ↔ x ∈ l := by
  induction l with
  | nil => simp [pySortedDesc]
  | cons a l ih =>
    show x ∈ insertByDesc key a (pySortedDesc key l) ↔ _
    rw [mem_insertByDesc, ih, List.mem_cons]

theorem pySortedDesc_cons_spec (key : α → Nat) (a : α) (l : List α) :
    ∃ m rest, pySortedDesc key (a :: l) = m :: rest ∧
      ∃ l₁ l₂, a :: l = l₁ ++ m :: l₂ ∧ (∀ u ∈ l₁, key u < key m) ∧
        ∀ u ∈ a :: l, key u ≤ key m := by
  induction l generalizing a with
  | nil =>
    refine ⟨a, [], rfl, [], [], rfl, by simp, ?_⟩
    intro u hu
    simp only [List.mem_singleton] at hu
    simp [hu]
  | cons b l ih =>
    obtain ⟨m', rest', hsort, l₁, l₂, hdec, hlt, hle⟩ := ih b
    show (∃ m rest, insertByDesc key a (pySortedDesc key (b :: l)) = m :: rest ∧ _)
    rw [hsort]
    by_cases h : key m' > key a
    · refine ⟨m', insertByDesc key a rest', ?_, a :: l₁, l₂, by rw [hdec]; rfl, ?_, ?_⟩
      · simp [insertByDesc, if_pos h]
      · intro u hu
        rcases List.mem_cons.mp hu with rfl | hu
        · exact h
        · exact hlt u hu
      · intro u hu
        rcases List.mem_cons.mp hu with rfl | hu
        · exact Nat.le_of_lt h
        · exact hle u hu
    · refine ⟨a, m' :: rest', ?_, [], b :: l, rfl, by simp, ?_⟩
      · simp [insertByDesc, if_neg h]
      · intro u hu
        rcases List.mem_cons.mp hu with rfl | hu
        · exact Nat.le_refl _
        · exact Nat.le_trans (hle u hu) (Nat.le_of_not_lt h)

theorem is_video_empty_false : is_video "" = false := by decide

theorem is_subtitle_empty_false : is_subtitle "" = false := by decide

theorem string_append_slash_ne_empty (a b : String) : a ++ "/" ++ b ≠ "" := by
  intro h
  have := congrArg String.data h
  rw [String.data_append, String.data_append] at this
  simp at this

theorem mem_sidecar_dest_shape (main subs : List Rule) (r : Rule)
    (hr : r ∈ sidecar_subtitle main subs) : ∃ a b : String, r.dest = a ++ "/" ++ b := by
  match main with
  | [] => simp [sidecar_subtitle] at hr
  | mv :: rest =>
    simp only [sidecar_subtitle] at hr
    by_cases h1 : has_sidecar subs (pyDirname mv.filename) = true
    · simp [h1] at hr
    · rw [if_neg h1] at hr
      by_cases h2 : has_vobsub subs = true
      · rw [if_pos h2] at hr
        simp only [sidecar_vobsub, List.mem_filterMap] at hr
        obtain ⟨s, _, hs⟩ := hr
        by_cases h3 : parse_extension s.filename ∈ (["idx", "sub"] : List String)
        · rw [if_pos h3, Option.some_inj] at hs
          exact ⟨pyDirname mv.filename, pyBasename s.filename, by rw [← hs]⟩
        · rw [if_neg h3] at hs
          exact absurd hs (Option.noConfusion)
      · rw [if_neg h2] at hr
        unfold sidecar_best_non_vobsub at hr
        match hs : pySortedDesc rank_subtitle subs with
        | [] => rw [hs] at hr; simp at hr
        | best :: more =>
          rw [hs] at hr
          simp only [List.mem_singleton] at hr
          exact ⟨pyDirname mv.filename, pyBasename best.filename, by rw [hr]⟩

theorem pruneChainFuel_succ (fuel : Nat) (fs : FS) (s : String) (rest : List String) :
    pruneChainFuel (fuel + 1) fs (s :: rest)
      = if isEmptyDir fs (s :: rest) then
          pruneChainFuel fuel (removeDir fs (s :: rest)) ((s :: rest).dropLast)
        else fs := rfl

theorem removeDir_files (fs : FS) (d : List String) : (removeDir fs d).files = fs.files := rfl

theorem pruneChainFuel_files (fuel : Nat) :
    ∀ (fs : FS) (d : List String), (pruneChainFuel fuel fs d).files = fs.files := by
  induction fuel with
  | zero => intro fs d; rfl
  | succ fuel ih =>
    intro fs d
    match d with
    | [] => rfl
    | s :: rest =>
      rw [pruneChainFuel_succ]
      by_cases h : isEmptyDir fs (s :: rest) = true
      · rw [if_pos h, ih, removeDir_files]
      · rw [if_neg h]

theorem pruneChainFuel_dirs_subset (fuel : Nat) :
    ∀ (fs : FS) (d x : List String),
      x ∈ (pruneChainFuel fuel fs d).dirs → x ∈ fs.dirs := by
  induction fuel with
  | zero => intro fs d x hx; exact hx
  | succ fuel ih =>
    intro fs d x hx
    match d with
    | [] => exact hx
    | s :: rest =>
      rw [pruneChainFuel_succ] at hx
      by_cases h : isEmptyDir fs (s :: rest) = true
      · rw [if_pos h] at hx
        have := ih _ _ _ hx
        exact (List.mem_filter.mp this).1
      · rwa [if_neg h] at hx

theorem pruneChainFuel_keeps_nil (fuel : Nat) :
    ∀ (fs : FS) (d : List String), [] ∈ fs.dirs → [] ∈ (pruneChainFuel fuel fs d).dirs := by
  induction fuel with
  | zero => intro fs d h; exact h
  | succ fuel ih =>
    intro fs d h
    match d with
    | [] => exact h
    | s :: rest =>
      rw [pruneChainFuel_succ]
      by_cases hemp : isEmptyDir fs (s :: rest) = true
      · rw [if_pos hemp]
        refine ih _ _ ?_
        exact List.mem_filter.mpr ⟨h, by simp⟩
      · rwa [if_neg hemp]

theorem isEmptyDir_mono (fs fs' : FS) (d : List String)
    (hfiles : fs'.files = fs.files) (hdirs : ∀ x ∈ fs'.dirs, x ∈ fs.dirs)
    (h : isEmptyDir fs d = true) : isEmptyDir fs' d = true := by
  unfold isEmptyDir at h ⊢
  rw [Bool.and_eq_true, List.all_eq_true, List.all_eq_true] at h ⊢
  obtain ⟨h1, h2⟩ := h
  constructor
  · intro f hf
    exact h1 f (hfiles ▸ hf)
  · intro d2 hd2
    exact h2 d2 (hdirs d2 hd2)

theorem pruneChainFuel_deleted (fuel : Nat) :
    ∀ (fs : FS) (d x : List String), x ∈ fs.dirs →
      x ∉ (pruneChainFuel fuel fs d).dirs →
      x ≠ [] ∧ isEmptyDir (pruneChainFuel fuel fs d) x = true ∧ x <+: d := by
  induction fuel with
  | zero => intro fs d x hx hnx; exact absurd hx hnx
  | succ fuel ih =>
    intro fs d x hx hnx
    match d with
    | [] => exact absurd hx hnx
    | s :: rest =>
      rw [pruneChainFuel_succ] at hnx ⊢
      by_cases hemp : isEmptyDir fs (s :: rest) = true
      · rw [if_pos hemp] at hnx ⊢
        by_cases hx1 : x ∈ (removeDir fs (s :: rest)).dirs
        · obtain ⟨hne, hempx, hpre⟩ := ih _ _ _ hx1 hnx
          exact ⟨hne, hempx, hpre.trans (List.dropLast_prefix _)⟩
        · have hxd : x = s :: rest := by
            by_contra hne
            refine hx1 (List.mem_filter.mpr ⟨hx, ?_⟩)
            simp only [Bool.not_eq_true']
            exact beq_eq_false_iff_ne.mpr hne
          subst hxd
          refine ⟨by simp, ?_, List.prefix_rfl⟩
          refine isEmptyDir_mono fs _ _ ?_ ?_ hemp
          · rw [pruneChainFuel_files, removeDir_files]
          · intro y hy
            have := pruneChainFuel_dirs_subset _ _ _ _ hy
            exact (List.mem_filter.mp this).1
      · rw [if_neg hemp] at hnx
        exact absurd hx hnx

theorem pruneChain_files (fs : FS) (d : List String) :
    (pruneChain fs d).files = fs.files := pruneChainFuel_files _ _ _

theorem pruneChain_dirs_subset (fs : FS) (d x : List String) :
    x ∈ (pruneChain fs d).dirs → x ∈ fs.dirs := pruneChainFuel_dirs_subset _ _ _ _

theorem pruneChain_keeps_nil (fs : FS) (d : List String) :
    [] ∈ fs.dirs → [] ∈ (pruneChain fs d).dirs := pruneChainFuel_keeps_nil _ _ _

theorem pruneChain_deleted (fs : FS) (d x : List String) :
    x ∈ fs.dirs → x ∉ (pruneChain fs d).dirs →
      x ≠ [] ∧ isEmptyDir (pruneChain fs d) x = true ∧ x <+: d :=
  pruneChainFuel_deleted _ _ _ _

theorem pruneChain_not_empty_eq (fs : FS) (d : List String)
    (h : isEmptyDir fs d = false) : pruneChain fs d = fs := by
  match d with
  | [] => rfl
  | s :: rest =>
    show pruneChainFuel (rest.length + 1) fs (s :: rest) = fs
    rw [pruneChainFuel_succ, if_neg (by rw [h]; exact Bool.false_ne_true)]

theorem pruneChain_empty_step (fs : FS) (d : List String) (hne : d ≠ [])
    (h : isEmptyDir fs d = true) :
    pruneChain fs d = pruneChain (removeDir fs d) d.dropLast := by
  match d with
  | [] => exact absurd rfl hne
  | s :: rest =>
    show pruneChainFuel (rest.length + 1) fs (s :: rest)
        = pruneChainFuel ((s :: rest).dropLast).length (removeDir fs (s :: rest)) ((s :: rest).dropLast)
    have hlen : ((s :: rest).dropLast).length = rest.length := by
      rw [List.length_dropLast]
      rfl
    rw [hlen, pruneChainFuel_succ, if_pos h]

theorem pruneChain_deletes_empty_start (fs : FS) (d : List String) (hne : d ≠ [])
    (h : isEmptyDir fs d = true) : d ∉ (pruneChain fs d).dirs := by
  rw [pruneChain_empty_step fs d hne h]
  intro hmem
  have hmem2 := pruneChain_dirs_subset _ _ _ hmem
  have : (d == d) = false := by
    have := List.mem_filter.mp hmem2
    simpa using this.2
  simp at this

theorem pruneEmptyDirectories_files (dfs : List (List String)) :
    ∀ fs : FS, (pruneEmptyDirectories fs dfs).files = fs.files := by
  induction dfs with
  | nil => intro fs; rfl
  | cons f rest ih =>
    intro fs
    show (pruneEmptyDirectories (pruneChain fs f.dropLast) rest).files = fs.files
    rw [ih, pruneChain_files]

theorem pruneEmptyDirectories_dirs_subset (dfs : List (List String)) :
    ∀ (fs : FS) (x : List String),
      x ∈ (pruneEmptyDirectories fs dfs).dirs → x ∈ fs.dirs := by
  induction dfs with
  | nil => intro fs x hx; exact hx
  | cons f rest ih =>
    intro fs x hx
    exact pruneChain_dirs_subset _ _ _ (ih _ _ hx)

theorem pruneEmptyDirectories_keeps_nil (dfs : List (List String)) :
    ∀ fs : FS, [] ∈ fs.dirs → [] ∈ (pruneEmptyDirectories fs dfs).dirs := by
  induction dfs with
  | nil => intro fs h; exact h
  | cons f rest ih =>
    intro fs h
    exact ih _ (pruneChain_keeps_nil _ _ h)

theorem pruneEmptyDirectories_deleted (dfs : List (List String)) :
    ∀ (fs : FS) (x : List String), x ∈ fs.dirs →
      x ∉ (pruneEmptyDirectories fs dfs).dirs →
      x ≠ [] ∧ isEmptyDir (pruneEmptyDirectories fs dfs) x = true ∧
        ∃ f ∈ dfs, x <+: f.dropLast := by
  induction dfs with
  | nil => intro fs x hx hnx; exact absurd hx hnx
  | cons f rest ih =>
    intro fs x hx hnx
    have hstep : pruneEmptyDirectories fs (f :: rest)
        = pruneEmptyDirectories (pruneChain fs f.dropLast) rest := rfl
    rw [hstep] at hnx ⊢
    by_cases hx1 : x ∈ (pruneChain fs f.dropLast).dirs
    · obtain ⟨hne, hempx, g, hg, hpre⟩ := ih _ _ hx1 hnx
      exact ⟨hne, hempx, g, List.mem_cons_of_mem _ hg, hpre⟩
    · obtain ⟨hne, hempx, hpre⟩ := pruneChain_deleted _ _ _ hx hx1
      refine ⟨hne, ?_, f, List.mem_cons_self _ _, hpre⟩
      refine isEmptyDir_mono _ _ _ ?_ ?_ hempx
      · rw [pruneEmptyDirectories_files, pruneChain_files]
      · intro y hy
        exact pruneEmptyDirectories_dirs_subset _ _ _ hy

theorem sidecar_subtitle_cons (mv : Rule) (rest subs : List Rule) :
    sidecar_subtitle (mv :: rest) subs
      = if has_sidecar subs (pyDirname mv.filename) then []
        else if has_vobsub subs then sidecar_vobsub subs (pyDirname mv.filename)
        else sidecar_best_non_vobsub subs (pyDirname mv.filename) := rfl

theorem forward_main_videos_eq (t : Torrent) :
    forward_main_videos t
      = match pySortedDesc (fun v => v.size) (t.files.filter fun f => is_video f.name) with
        | [] => []
        | main_video :: _ => [⟨t.downloadDir, main_video.name, main_video.name⟩] := rfl

theorem takeWhile_append_stop (p : α → Bool) :
    ∀ (l1 : List α) (a : α) (l2 : List α), (∀ x ∈ l1, p x = true) → p a = false →
      (l1 ++ a :: l2).takeWhile p = l1 := by
  intro l1
  induction l1 with
  | nil =>
    intro a l2 _ ha
    simp [List.takeWhile_cons, ha]
  | cons x xs ih =>
    intro a l2 hall ha
    have hx : p x = true := hall x (List.mem_cons_self _ _)
    show ((x :: (xs ++ a :: l2)).takeWhile p) = x :: xs
    rw [List.takeWhile_cons, hx]
    simp [ih a l2 (fun y hy => hall y (List.mem_cons_of_mem _ hy)) ha]

theorem takeWhile_append_all (p : α → Bool) :
    ∀ (l1 l2 : List α), (∀ x ∈ l1, p x = true) →
      (l1 ++ l2).takeWhile p = l1 ++ l2.takeWhile p := by
  intro l1
  induction l1 with
  | nil =>
    intro l2 _
    simp
  | cons x xs ih =>
    intro l2 h
    have hx : p x = true := h x (List.mem_cons_self _ _)
    rw [List.cons_append, List.takeWhile_cons, hx]
    simp [ih l2 (fun y hy => h y (List.mem_cons_of_mem _ hy))]

theorem drop_length_append_cons (l1 : List α) (a : α) (l2 : List α) :
    (l1 ++ a :: l2).drop (l1.length + 1) = l2 := by
  have h : l1 ++ a :: l2 = (l1 ++ [a]) ++ l2 := by simp
  have hl : (l1 ++ [a]).length = l1.length + 1 := by simp
  rw [h, ← hl, List.drop_left]

theorem mem_forward_main_videos_dest (t : Torrent) (f : Rule)
    (hf : f ∈ forward_main_videos t) : is_video f.dest = true := by
  rw [forward_main_videos_eq] at hf
  cases hs : pySortedDesc (fun v => v.size) (t.files.filter fun g => is_video g.name) with
  | nil => rw [hs] at hf; simp at hf
  | cons mv rest =>
    rw [hs] at hf
    simp only [List.mem_singleton] at hf
    subst hf
    show is_video mv.name = true
    have hm : mv ∈ pySortedDesc (fun v => v.size) (t.files.filter fun g => is_video g.name) := by
      rw [hs]; exact List.mem_cons_self _ _
    rw [mem_pySortedDesc] at hm
    exact (List.mem_filter.mp hm).2

theorem mem_forward_subtitles_dest (t : Torrent) (f : Rule)
    (hf : f ∈ forward_subtitles t) : is_subtitle f.dest = true := by
  unfold forward_subtitles at hf
  rw [List.mem_filterMap] at hf
  obtain ⟨a, _, ha⟩ := hf
  by_cases h : is_subtitle a.name = true
  · rw [if_pos h, Option.some_inj] at ha
    rw [← ha]
    exact h
  · rw [if_neg h] at ha
    exact absurd ha (Option.noConfusion)

theorem is_video_name_ne_empty (n : String) (h : is_video n = true) : n ≠ "" := by
  intro he
  rw [he, is_video_empty_false] at h
  exact Bool.false_ne_true h

theorem is_subtitle_name_ne_empty (n : String) (h : is_subtitle n = true) : n ≠ "" := by
  intro he
  rw [he, is_subtitle_empty_false] at h
  exact Bool.false_ne_true h

theorem matchAnchoredWord_head (l w : List Char) (c : Char) (rest : List Char)
    (hw : w = c :: rest) (h : matchAnchoredWord l w = true) : ∃ t, l = c :: t := by
  unfold matchAnchoredWord at h
  rw [Bool.and_eq_true, Bool.and_eq_true] at h
  have hp := h.1.1
  rw [List.isPrefixOf_iff_prefix] at hp
  obtain ⟨t, ht⟩ := hp
  subst hw
  exact ⟨rest ++ t, by rw [← ht]; rfl⟩

theorem is_english_not_sdh (n : String) (he : is_english_subtitle n = true) :
    is_sdh_subtitle n = false := by
  by_contra hs
  rw [Bool.not_eq_false] at hs
  simp only [is_sdh_subtitle, contains_any_word_ignoring_case, List.any_eq_true] at hs
  obtain ⟨w, hw, hmatch⟩ := hs
  simp only [List.mem_singleton] at hw
  subst hw
  obtain ⟨t1, ht1⟩ := matchAnchoredWord_head _ _ 's' ['d', 'h'] (by decide) hmatch
  simp only [is_english_subtitle, contains_any_word_ignoring_case, List.any_eq_true] at he
  obtain ⟨w2, hw2, hmatch2⟩ := he
  simp only [List.mem_cons, List.mem_singleton, List.not_mem_nil, or_false] at hw2
  rcases hw2 with rfl | rfl | rfl
  · obtain ⟨t2, ht2⟩ := matchAnchoredWord_head _ _ 'e'
      ['n', 'g', 'l', 'i', 's', 'h'] (by decide) hmatch2
    rw [ht1] at ht2
    simp at ht2
  · obtain ⟨t2, ht2⟩ := matchAnchoredWord_head _ _ 'e' ['n', 'g'] (by decide) hmatch2
    rw [ht1] at ht2
    simp at ht2
  · obtain ⟨t2, ht2⟩ := matchAnchoredWord_head _ _ 'e' ['n'] (by decide) hmatch2
    rw [ht1] at ht2
    simp at ht2

/-! ## Claim theorems -/

/-- C1 counterexample: the Subtitle Ranker assigns rank 80 — not 100 — to
`movie.english.srt` and rank 80 — not 90 — to `movie.english.sdh.srt`: the
word test is anchored at the start of the basename by `re.match`, and both
basenames start with `movie`, so neither is recognised as English. -/
theorem c1_rank_counterexample :
    rank_subtitle ⟨"dl", "movie.english.srt", "movie.english.srt"⟩ = 80 ∧
    rank_subtitle ⟨"dl", "movie.english.srt", "movie.english.srt"⟩ ≠ 100 ∧
    rank_subtitle ⟨"dl", "movie.english.sdh.srt", "movie.english.sdh.srt"⟩ = 80 ∧
    rank_subtitle ⟨"dl", "movie.english.sdh.srt", "movie.english.sdh.srt"⟩ ≠ 90 := by
  decide

/-- C1 (amended): the Subtitle Ranker assigns rank 80 to each of
`movie.english.srt`, `movie.english.sdh.srt` and `movie.fr.srt` (the
anchored word match recognises none of them as English); when the three,
in that order, are the subtitle set of a download whose main video lives
in directory `vid` (no VobSub pair, no co-located subtitle), the File
Mapper emits exactly one sidecar MappingRule, and — as the first-listed
among equally ranked subtitles — it is for `movie.english.srt`. -/
theorem c1_ranking_and_single_sidecar :
    rank_subtitle ⟨"dl", "movie.english.srt", "movie.english.srt"⟩ = 80 ∧
    rank_subtitle ⟨"dl", "movie.english.sdh.srt", "movie.english.sdh.srt"⟩ = 80 ∧
    rank_subtitle ⟨"dl", "movie.fr.srt", "movie.fr.srt"⟩ = 80 ∧
    sidecar_subtitle
        (forward_main_videos ⟨"dl", [⟨"vid/m.mkv", 5⟩, ⟨"movie.english.srt", 1⟩,
          ⟨"movie.english.sdh.srt", 1⟩, ⟨"movie.fr.srt", 1⟩]⟩)
        (forward_subtitles ⟨"dl", [⟨"vid/m.mkv", 5⟩, ⟨"movie.english.srt", 1⟩,
          ⟨"movie.english.sdh.srt", 1⟩, ⟨"movie.fr.srt", 1⟩]⟩)
      = [⟨"dl", "movie.english.srt", "vid/movie.english.srt"⟩] ∧
    map_single_video_download_with_subs
        ⟨"dl", [⟨"vid/m.mkv", 5⟩, ⟨"movie.english.srt", 1⟩,
          ⟨"movie.english.sdh.srt", 1⟩, ⟨"movie.fr.srt", 1⟩]⟩ "root/"
      = [⟨"dl", "vid/m.mkv", "root/vid/m.mkv"⟩,
         ⟨"dl", "movie.english.srt", "root/movie.english.srt"⟩,
         ⟨"dl", "movie.english.sdh.srt", "root/movie.english.sdh.srt"⟩,
         ⟨"dl", "movie.fr.srt", "root/movie.fr.srt"⟩,
         ⟨"dl", "movie.english.srt", "root/vid/movie.english.srt"⟩] := by
  decide

/-- C2 counterexample: a download whose only file is the subtitle `a.srt`
has no video-classified file, yet the File Mapper returns a non-empty rule
set — the subtitle forwarding rule. -/
theorem c2_counterexample :
    (∀ f ∈ (⟨"dl", [⟨"a.srt", 1⟩]⟩ : Torrent).files, is_video f.name = false) ∧
    map_single_video_download_with_subs ⟨"dl", [⟨"a.srt", 1⟩]⟩ "r/"
      = [⟨"dl", "a.srt", "r/a.srt"⟩] ∧
    map_single_video_download_with_subs ⟨"dl", [⟨"a.srt", 1⟩]⟩ "r/" ≠ [] := by
  decide

/-- C2 (amended): whenever no input file is classified as video, the File
Mapper emits no main-video rule and no sidecar rule; the result is exactly
the root-prefixed subtitle forwarding rules (so it is empty iff there are
no subtitles among the inputs). -/
theorem c2_no_video_forwards_only_subtitles (t : Torrent) (d : String)
    (h : ∀ f ∈ t.files, is_video f.name = false) :
    forward_main_videos t = [] ∧
    sidecar_subtitle (forward_main_videos t) (forward_subtitles t) = [] ∧
    map_single_video_download_with_subs t d = move_to_dir d (forward_subtitles t) := by
  have hv : t.files.filter (fun f => is_video f.name) = [] :=
    List.filter_eq_nil_iff.mpr (fun a ha => by simp [h a ha])
  have hm : forward_main_videos t = [] := by
    rw [forward_main_videos_eq, hv]
    rfl
  refine ⟨hm, ?_, ?_⟩
  · rw [hm]
    rfl
  · unfold map_single_video_download_with_subs
    rw [hm]
    show move_to_dir d ([] ++ forward_subtitles t ++ sidecar_subtitle [] (forward_subtitles t)) = _
    show move_to_dir d ([] ++ forward_subtitles t ++ []) = _
    rw [List.nil_append, List.append_nil]

/-- C2 witness: the amended statement at the concrete one-subtitle
download. -/
theorem c2_witness :
    forward_main_videos ⟨"dl", [⟨"a.srt", 1⟩]⟩ = [] ∧
    sidecar_subtitle (forward_main_videos ⟨"dl", [⟨"a.srt", 1⟩]⟩)
        (forward_subtitles ⟨"dl", [⟨"a.srt", 1⟩]⟩) = [] ∧
    map_single_video_download_with_subs ⟨"dl", [⟨"a.srt", 1⟩]⟩ "r/"
      = move_to_dir "r/" (forward_subtitles ⟨"dl", [⟨"a.srt", 1⟩]⟩) :=
  c2_no_video_forwards_only_subtitles ⟨"dl", [⟨"a.srt", 1⟩]⟩ "r/" (by decide)

/-- C10: for every subtitle, `rank_subtitle` returns either 80 or 100 and
never 90: both word tests are anchored at the start of the basename, and a
basename cannot begin simultaneously with an English word (first letter
`e`) and with `sdh` (first letter `s`), so the 90 branch is unreachable. -/
theorem c10_rank_never_90 (sub : Rule) :
    rank_subtitle sub = 80 ∨ rank_subtitle sub = 100 := by
  simp only [rank_subtitle]
  by_cases he : is_english_subtitle (pyBasename sub.filename) = true
  · rw [if_pos he, if_neg (by rw [is_english_not_sdh _ he]; exact Bool.false_ne_true)]
    right
    rfl
  · rw [if_neg he]
    left
    rfl

/-- C3 counterexample: the dotless filename `video` is classified as
`other`, but its extension is the empty string, not the whole name —
`os.path.splitext('video')[1][1:]` is `''`. -/
theorem c3_counterexample :
    parse_extension "video" = "" ∧
    parse_extension "video" ≠ "video" ∧
    is_video "video" = false ∧
    is_subtitle "video" = false := by
  decide

/-- C3 (amended): the extension is the substring after the last `.` only
when that dot lies inside the final path component and some character of
that component strictly before it is not a dot; a filename containing no
`.` yields the EMPTY string as extension (not the whole name), and such a
file — e.g. one named `video` — is classified as other (neither video nor
subtitle). -/
theorem c3_extension_semantics :
    (∀ p : String, '.' ∉ p.data →
      parse_extension p = "" ∧ is_video p = false ∧ is_subtitle p = false) ∧
    (∀ a b e : List Char, '.' ∉ e → '/' ∉ e → '/' ∉ b → (∃ c ∈ b, c ≠ '.') →
      parse_extension ⟨a ++ b ++ '.' :: e⟩ = ⟨e⟩) ∧
    (parse_extension "video" = "" ∧ is_video "video" = false ∧
      is_subtitle "video" = false) := by
  refine ⟨?_, ?_, by decide⟩
  · intro p hp
    have hpe : parse_extension p = "" := by
      simp only [parse_extension, splitextTailAux]
      have ht : p.data.reverse.takeWhile (fun c => c != '.') = p.data.reverse := by
        rw [List.takeWhile_eq_self_iff]
        intro c hc
        rw [List.mem_reverse] at hc
        exact bne_iff_ne.mpr (fun hce => hp (hce ▸ hc))
      rw [ht, if_pos rfl]
      rfl
    refine ⟨hpe, ?_, ?_⟩
    · unfold is_video
      rw [hpe]
      decide
    · unfold is_subtitle
      rw [hpe]
      decide
  · intro a b e hde hse hsb hnb
    simp only [parse_extension, splitextTailAux]
    have hrev : (a ++ b ++ '.' :: e).reverse
        = e.reverse ++ '.' :: (b.reverse ++ a.reverse) := by
      rw [List.reverse_append, List.reverse_cons, List.reverse_append]
      simp
    rw [hrev]
    have htw : (e.reverse ++ '.' :: (b.reverse ++ a.reverse)).takeWhile
        (fun c => c != '.') = e.reverse := by
      refine takeWhile_append_stop _ _ _ _ ?_ (by decide)
      intro x hx
      rw [List.mem_reverse] at hx
      exact bne_iff_ne.mpr (fun hce => hde (hce ▸ hx))
    rw [htw]
    have hlen : ¬ e.reverse.length
        = (e.reverse ++ '.' :: (b.reverse ++ a.reverse)).length := by
      rw [List.length_append, List.length_cons]
      omega
    rw [if_neg hlen]
    have hcont : e.reverse.contains '/' = false := by
      have hnm : '/' ∉ e.reverse := fun hx => hse (List.mem_reverse.mp hx)
      simp [List.contains, List.elem_eq_mem, hnm]
    rw [hcont, if_neg Bool.false_ne_true]
    have hdrop : (e.reverse ++ '.' :: (b.reverse ++ a.reverse)).drop
        (e.reverse.length + 1) = b.reverse ++ a.reverse :=
      drop_length_append_cons _ _ _
    rw [hdrop]
    have hbt : (b.reverse ++ a.reverse).takeWhile (fun c => c != '/')
        = b.reverse ++ a.reverse.takeWhile (fun c => c != '/') := by
      refine takeWhile_append_all _ _ _ ?_
      intro c hc
      rw [List.mem_reverse] at hc
      exact bne_iff_ne.mpr (fun hce => hsb (hce ▸ hc))
    rw [hbt]
    have hany : (b.reverse ++ a.reverse.takeWhile (fun c => c != '/')).any
        (fun c => c != '.') = true := by
      rw [List.any_eq_true]
      obtain ⟨c, hc, hcne⟩ := hnb
      exact ⟨c, List.mem_append_left _ (List.mem_reverse.mpr hc), bne_iff_ne.mpr hcne⟩
    rw [if_pos hany]
    rw [List.reverse_reverse]
    rfl

/-- C3 witness: the amended statement at the dotless `video` and at the
directory-bearing `dir/` ++ `movie` ++ `.` ++ `srt`. -/
theorem c3_witness :
    (parse_extension "video" = "" ∧ is_video "video" = false ∧
      is_subtitle "video" = false) ∧
    parse_extension ⟨"dir/".data ++ "movie".data ++ '.' :: "srt".data⟩ = ⟨"srt".data⟩ :=
  ⟨c3_extension_semantics.1 "video" (by decide),
   c3_extension_semantics.2.1 "dir/".data "movie".data "srt".data (by decide)
     (by decide) (by decide) ⟨'m', by decide, by decide⟩⟩

/-- C4: whenever some input file is video-classified, the File Mapper
emits exactly one main-video MappingRule; it is for a video-classified
file `m` of maximal `sizeBytes` — every video listed before `m` is
strictly smaller, so on exact size ties the first-listed wins — and the
rule's destination relative name equals its source relative name (the
original path, before root prefixing). -/
theorem c4_main_video_selection (t : Torrent) (v : DFile)
    (hv : v ∈ t.files) (hvid : is_video v.name = true) :
    ∃ m l₁ l₂,
      t.files.filter (fun f => is_video f.name) = l₁ ++ m :: l₂ ∧
      is_video m.name = true ∧
      (∀ u ∈ l₁, u.size < m.size) ∧
      (∀ u ∈ t.files, is_video u.name = true → u.size ≤ m.size) ∧
      forward_main_videos t = [⟨t.downloadDir, m.name, m.name⟩] := by
  have hmem : v ∈ t.files.filter (fun f => is_video f.name) :=
    List.mem_filter.mpr ⟨hv, hvid⟩
  match hfe : t.files.filter (fun f => is_video f.name) with
  | [] => rw [hfe] at hmem; simp at hmem
  | a :: vl =>
    obtain ⟨m, rest, hsort, l₁, l₂, hdec, hlt, hle⟩ :=
      pySortedDesc_cons_spec (fun v => v.size) a vl
    refine ⟨m, l₁, l₂, by rw [hfe, hdec], ?_, hlt, ?_, ?_⟩
    · have hmm : m ∈ t.files.filter (fun f => is_video f.name) := by
        rw [hfe, hdec]
        exact List.mem_append_right _ (List.mem_cons_self _ _)
      exact (List.mem_filter.mp hmm).2
    · intro u hu huvid
      have hum : u ∈ a :: vl := by
        rw [← hfe]
        exact List.mem_filter.mpr ⟨hu, huvid⟩
      exact hle u hum
    · rw [forward_main_videos_eq, hfe, hsort]

/-- C4 witness: the selection statement at a concrete three-video
download, sizes 10, 50, 30. -/
theorem c4_witness :
    ∃ m l₁ l₂,
      (⟨"dl", [⟨"a.mkv", 10⟩, ⟨"b.mp4", 50⟩, ⟨"c.avi", 30⟩]⟩ :
          Torrent).files.filter (fun f => is_video f.name) = l₁ ++ m :: l₂ ∧
      is_video m.name = true ∧
      (∀ u ∈ l₁, u.size < m.size) ∧
      (∀ u ∈ (⟨"dl", [⟨"a.mkv", 10⟩, ⟨"b.mp4", 50⟩, ⟨"c.avi", 30⟩]⟩ :
          Torrent).files, is_video u.name = true → u.size ≤ m.size) ∧
      forward_main_videos ⟨"dl", [⟨"a.mkv", 10⟩, ⟨"b.mp4", 50⟩, ⟨"c.avi", 30⟩]⟩
        = [⟨"dl", m.name, m.name⟩] :=
  c4_main_video_selection ⟨"dl", [⟨"a.mkv", 10⟩, ⟨"b.mp4", 50⟩, ⟨"c.avi", 30⟩]⟩
    ⟨"a.mkv", 10⟩ (by decide) (by decide)

/-- C5: when a main video was selected, no subtitle shares the main
video's directory, and the subtitle set contains at least one `idx` and at
least one `sub` file anywhere, the sidecar rules are exactly one rule per
subtitle whose extension is `idx` or `sub` — destination
`videoDir/<basename>` — and no rule for any other subtitle. -/
theorem c5_vobsub_sidecars (mv : Rule) (rest subs : List Rule)
    (hno : ∀ s ∈ subs, pyDirname s.filename ≠ pyDirname mv.filename)
    (hidx : ∃ s ∈ subs, parse_extension s.filename = "idx")
    (hsub : ∃ s ∈ subs, parse_extension s.filename = "sub") :
    sidecar_subtitle (mv :: rest) subs
      = subs.filterMap fun s =>
          if parse_extension s.filename ∈ (["idx", "sub"] : List String) then
            some ⟨s.download_dir, s.filename,
              pyDirname mv.filename ++ "/" ++ pyBasename s.filename⟩
          else none := by
  have h1 : has_sidecar subs (pyDirname mv.filename) = false := by
    unfold has_sidecar
    rw [List.any_eq_false]
    intro s hs
    simp only [beq_iff_eq]
    exact hno s hs
  have h2 : has_vobsub subs = true := by
    unfold has_vobsub
    rw [Bool.and_eq_true, List.any_eq_true, List.any_eq_true]
    obtain ⟨s1, hs1, he1⟩ := hidx
    obtain ⟨s2, hs2, he2⟩ := hsub
    exact ⟨⟨s1, hs1, by simp [he1]⟩, ⟨s2, hs2, by simp [he2]⟩⟩
  rw [sidecar_subtitle_cons, h1, if_neg Bool.false_ne_true, h2, if_pos rfl]
  rfl

/-- C5 witness: the VobSub statement at the concrete subtitle set
`{s/a.idx, s/a.sub, s/b.srt}` with the main video in `vid`. -/
theorem c5_witness :
    sidecar_subtitle [⟨"dl", "vid/m.mkv", "vid/m.mkv"⟩]
        [⟨"dl", "s/a.idx", "s/a.idx"⟩, ⟨"dl", "s/a.sub", "s/a.sub"⟩,
         ⟨"dl", "s/b.srt", "s/b.srt"⟩]
      = ([⟨"dl", "s/a.idx", "s/a.idx"⟩, ⟨"dl", "s/a.sub", "s/a.sub"⟩,
          ⟨"dl", "s/b.srt", "s/b.srt"⟩] : List Rule).filterMap fun s =>
            if parse_extension s.filename ∈ (["idx", "sub"] : List String) then
              some ⟨s.download_dir, s.filename,
                pyDirname (Rule.filename ⟨"dl", "vid/m.mkv", "vid/m.mkv"⟩)
                  ++ "/" ++ pyBasename s.filename⟩
            else none :=
  c5_vobsub_sidecars ⟨"dl", "vid/m.mkv", "vid/m.mkv"⟩ []
    [⟨"dl", "s/a.idx", "s/a.idx"⟩, ⟨"dl", "s/a.sub", "s/a.sub"⟩,
     ⟨"dl", "s/b.srt", "s/b.srt"⟩]
    (by decide)
    ⟨⟨"dl", "s/a.idx", "s/a.idx"⟩, by decide, by decide⟩
    ⟨⟨"dl", "s/a.sub", "s/a.sub"⟩, by decide, by decide⟩

/-- C6: when a main video was selected and some subtitle's directory
equals the main video's directory, no sidecar rule at all is emitted,
whatever the other subtitles' ranks or locations. -/
theorem c6_sidecar_suppression (mv : Rule) (rest subs : List Rule)
    (h : ∃ s ∈ subs, pyDirname s.filename = pyDirname mv.filename) :
    sidecar_subtitle (mv :: rest) subs = [] := by
  have h1 : has_sidecar subs (pyDirname mv.filename) = true := by
    unfold has_sidecar
    rw [List.any_eq_true]
    obtain ⟨s, hs, he⟩ := h
    exact ⟨s, hs, by simp [he]⟩
  rw [sidecar_subtitle_cons, h1, if_pos rfl]

/-- C6 witness: suppression at a concrete set where a co-located `b.srt`
coexists with an elsewhere-located English subtitle. -/
theorem c6_witness :
    sidecar_subtitle [⟨"dl", "vid/m.mkv", "vid/m.mkv"⟩]
        [⟨"dl", "english.srt", "english.srt"⟩, ⟨"dl", "vid/b.srt", "vid/b.srt"⟩]
      = [] :=
  c6_sidecar_suppression ⟨"dl", "vid/m.mkv", "vid/m.mkv"⟩ []
    [⟨"dl", "english.srt", "english.srt"⟩, ⟨"dl", "vid/b.srt", "vid/b.srt"⟩]
    ⟨⟨"dl", "vid/b.srt", "vid/b.srt"⟩, by decide, by decide⟩

/-- C7: every subtitle-classified input yields a forwarding rule whose
destination relative name equals its original relative name, in input
order, regardless of whether a main video exists; the mapper output is the
root-prefixed main-video rules, then these forwarding rules, then the
sidecar rules — sidecars are additional, never a replacement. -/
theorem c7_subtitle_forwarding (t : Torrent) (d : String) :
    forward_subtitles t
      = (t.files.filter fun f => is_subtitle f.name).map
          (fun f => (⟨t.downloadDir, f.name, f.name⟩ : Rule)) ∧
    map_single_video_download_with_subs t d
      = move_to_dir d (forward_main_videos t) ++ move_to_dir d (forward_subtitles t)
        ++ move_to_dir d (sidecar_subtitle (forward_main_videos t) (forward_subtitles t)) ∧
    ∀ f ∈ t.files, is_subtitle f.name = true →
      (⟨t.downloadDir, f.name, d ++ f.name⟩ : Rule)
        ∈ map_single_video_download_with_subs t d := by
  refine ⟨filterMap_if_eq_map_filter _ _ _, ?_, ?_⟩
  · unfold map_single_video_download_with_subs move_to_dir
    rw [List.map_append, List.map_append]
  · intro f hf hsub
    have hmem : (⟨t.downloadDir, f.name, f.name⟩ : Rule) ∈ forward_subtitles t := by
      unfold forward_subtitles
      rw [List.mem_filterMap]
      exact ⟨f, hf, by rw [if_pos hsub]⟩
    unfold map_single_video_download_with_subs move_to_dir
    rw [List.mem_map]
    refine ⟨⟨t.downloadDir, f.name, f.name⟩, ?_, rfl⟩
    exact List.mem_append_left _ (List.mem_append_right _ hmem)

/-- C7 witness: the forwarded subtitle rule for `a.srt` is in the mapper
output of the one-subtitle download. -/
theorem c7_witness :
    (⟨"dl", "a.srt", "r/a.srt"⟩ : Rule)
      ∈ map_single_video_download_with_subs ⟨"dl", [⟨"a.srt", 1⟩]⟩ "r/" :=
  (c7_subtitle_forwarding ⟨"dl", [⟨"a.srt", 1⟩]⟩ "r/").2.2 ⟨"a.srt", 1⟩
    (by decide) (by decide)

/-- C8: every rule the mapper returns has a destination of the form
`destinationRoot ++ s` with `s` non-empty: the destination root is a
literal, strict string prefix of every destination. -/
theorem c8_destination_root_prefix (t : Torrent) (d : String) (r : Rule)
    (hr : r ∈ map_single_video_download_with_subs t d) :
    ∃ s : String, s ≠ "" ∧ r.dest = d ++ s := by
  unfold map_single_video_download_with_subs move_to_dir at hr
  rw [List.mem_map] at hr
  obtain ⟨f, hf, hfr⟩ := hr
  refine ⟨f.dest, ?_, by rw [← hfr]⟩
  rcases List.mem_append.mp hf with hf2 | hside
  · rcases List.mem_append.mp hf2 with hmain | hsubs
    · exact is_video_name_ne_empty _ (mem_forward_main_videos_dest t f hmain)
    · exact is_subtitle_name_ne_empty _ (mem_forward_subtitles_dest t f hsubs)
  · obtain ⟨a, b, hab⟩ := mem_sidecar_dest_shape _ _ _ hside
    rw [hab]
    exact string_append_slash_ne_empty a b

/-- C8 witness: the prefix statement at the one-subtitle download with
root `r/`. -/
theorem c8_witness :
    ∃ s : String, s ≠ "" ∧ (⟨"dl", "a.srt", "r/a.srt"⟩ : Rule).dest = "r/" ++ s :=
  c8_destination_root_prefix ⟨"dl", [⟨"a.srt", 1⟩]⟩ "r/" ⟨"dl", "a.srt", "r/a.srt"⟩
    (by decide)

/-- C9: (spec-modelled pruner) the boundary example — with root `R`
containing `R/a/b/file1` and `R/a/external`, deleting `file1` and pruning
removes `R/a/b` but leaves `R/a` and `R` because `external` remains — and
the claim's general parts: pruning never touches files; it only ever
removes directories; the root is never deleted, even when empty; a deleted
directory is always a proper descendant of the root, is empty after the
walk below it, and lies on the ancestor walk of some deleted file, so
unrelated siblings are untouched; the walk stops unchanged at a non-empty
directory; and from an empty proper descendant the walk deletes that
directory and continues at its parent. -/
theorem c9_prune_empty_directories :
    pruneEmptyDirectories pruneExampleFS [["a", "b", "file1"]]
        = ⟨[["a", "external"]], [[], ["a"]]⟩ ∧
    (∀ (fs : FS) (dfs : List (List String)),
        (pruneEmptyDirectories fs dfs).files = fs.files) ∧
    (∀ (fs : FS) (dfs : List (List String)) (x : List String),
        x ∈ (pruneEmptyDirectories fs dfs).dirs → x ∈ fs.dirs) ∧
    (∀ (fs : FS) (dfs : List (List String)),
        [] ∈ fs.dirs → [] ∈ (pruneEmptyDirectories fs dfs).dirs) ∧
    (∀ (fs : FS) (dfs : List (List String)) (x : List String),
        x ∈ fs.dirs → x ∉ (pruneEmptyDirectories fs dfs).dirs →
          x ≠ [] ∧ isEmptyDir (pruneEmptyDirectories fs dfs) x = true ∧
            ∃ f ∈ dfs, x <+: f.dropLast) ∧
    (∀ (fs : FS) (d : List String),
        isEmptyDir fs d = false → pruneChain fs d = fs) ∧
    (∀ (fs : FS) (d : List String), d ≠ [] → isEmptyDir fs d = true →
        pruneChain fs d = pruneChain (removeDir fs d) d.dropLast ∧
          d ∉ (pruneChain fs d).dirs) :=
  ⟨by decide,
   fun fs dfs => pruneEmptyDirectories_files dfs fs,
   fun fs dfs x => pruneEmptyDirectories_dirs_subset dfs fs x,
   fun fs dfs => pruneEmptyDirectories_keeps_nil dfs fs,
   fun fs dfs x => pruneEmptyDirectories_deleted dfs fs x,
   fun fs d => pruneChain_not_empty_eq fs d,
   fun fs d hne hemp =>
     ⟨pruneChain_empty_step fs d hne hemp, pruneChain_deletes_empty_start fs d hne hemp⟩⟩

/-- C9 witness: at the boundary example, the deleted directory `a/b` is a
proper descendant of the root, empty after pruning, and on the walk of the
deleted file. -/
theorem c9_witness :
    (["a", "b"] : List String) ≠ [] ∧
    isEmptyDir (pruneEmptyDirectories pruneExampleFS [["a", "b", "file1"]]) ["a", "b"]
      = true ∧
    ∃ f ∈ [["a", "b", "file1"]], (["a", "b"] : List String) <+: f.dropLast :=
  c9_prune_empty_directories.2.2.2.2.1 pruneExampleFS [["a", "b", "file1"]] ["a", "b"]
    (by decide) (by decide)
